import Mathlib

/-!
Shallow embedding of `src/sample_project/algorithms/primes.py`.

Python `int` is modelled by `Int` (arbitrary precision), Python `list[bool]`
by `List Bool`, Python `list[int]` by `List Int`.  A function that can raise
`ValueError` is modelled with `Except String`; the error string is the
message the Python code formats.  `while` loops become well-founded
recursion; loop hypotheses that hold at every reachable call site
(`2 ≤ i`, `0 < n`) are passed as `Prop` parameters so Lean can prove
termination, exactly mirroring the termination argument of the source.
-/

namespace Primes

/-- Inner marking loop of `generate_sieve`:
`j = i*i; while j <= n: is_prime[j] = False; j += i`. -/
def markMultiples (sieve : List Bool) (n j i : Nat) (hi : 0 < i) : List Bool :=
  if j ≤ n then
    markMultiples (sieve.set j false) n (j + i) i hi
  else
    sieve
termination_by n + 1 - j
decreasing_by omega

/-- Outer loop of `generate_sieve`:
`i = 2; while i*i <= n: (if is_prime[i]: mark multiples); i += 1`. -/
def sieveLoop (sieve : List Bool) (n i : Nat) (hi : 0 < i) : List Bool :=
  if i * i ≤ n then
    sieveLoop (if sieve.getD i false then markMultiples sieve n (i * i) i hi else sieve)
      n (i + 1) (Nat.succ_pos i)
  else
    sieve
termination_by n + 1 - i
decreasing_by
  have : i ≤ i * i := Nat.le_mul_of_pos_left i hi
  omega

/-- Initialisation of `generate_sieve`:
`is_prime = [False] * (n+1)` followed by `for i in range(2, n+1): is_prime[i] = True`,
i.e. entry `k` holds `2 ≤ k`. -/
def initFlags (n : Nat) : List Bool :=
  (List.range (n + 1)).map (fun k => decide (2 ≤ k))

/-- `generate_sieve` from `primes.py`. -/
def generate_sieve (n : Int) : Except String (List Bool) :=
  if n < 0 then
    .error ("Limit cannot be negative: " ++ toString n)
  else if n < 2 then
    .ok (List.replicate (n.toNat + 1) false)
  else
    .ok (sieveLoop (initFlags n.toNat) n.toNat 2 (by omega))

/-- `is_prime` from `primes.py`.  For `n ≥ 2` the sieve call never fails,
so the `error` branch (Python would propagate the exception) is dead code. -/
def is_prime (n : Int) : Bool :=
  if n < 2 then
    false
  else
    match generate_sieve n with
    | .error _ => false
    | .ok sieve => sieve.getD n.toNat false

/-- `sum_primes` from `primes.py`.  The summation loop
`for i in range(2, n): if sieve[i]: total += i` is the fold below. -/
def sum_primes (n : Int) : Except String Int :=
  if n < 0 then
    .error ("Upper bound cannot be negative: " ++ toString n)
  else if n ≤ 2 then
    .ok 0
  else
    match generate_sieve (n - 1) with
    | .error e => .error e
    | .ok sieve =>
        .ok ((List.range' 2 (n.toNat - 2)).foldl
              (fun total i => if sieve.getD i false then total + i else total) 0 : Nat)

/-- `get_all_primes_up_to` from `primes.py`.  The collection loop
`for i in range(2, n+1): if sieve[i]: primes.append(i)` is the filter below. -/
def get_all_primes_up_to (n : Int) : Except String (List Int) :=
  if n < 0 then
    .error ("Upper bound cannot be negative: " ++ toString n)
  else if n < 2 then
    .ok []
  else
    match generate_sieve n with
    | .error e => .error e
    | .ok sieve =>
        .ok (((List.range' 2 (n.toNat - 1)).filter
              (fun i => sieve.getD i false)).map Int.ofNat)

/-- `sum_primes_using_sieve` from `primes.py`.  Identical to `sum_primes`
except for the error message and the guard `n < 2` instead of `n <= 2`. -/
def sum_primes_using_sieve (n : Int) : Except String Int :=
  if n < 0 then
    .error ("Upper limit cannot be negative: " ++ toString n)
  else if n < 2 then
    .ok 0
  else
    match generate_sieve (n - 1) with
    | .error e => .error e
    | .ok sieve =>
        .ok ((List.range' 2 (n.toNat - 2)).foldl
              (fun total i => if sieve.getD i false then total + i else total) 0 : Nat)

/-- Inner loop of `prime_factors`:
`while n % i == 0: factors.append(i); n //= i`.
Returns the remaining value together with the appended factors.
`2 ≤ i` and `0 < n` hold at every reachable call site of the Python loop and
justify its termination. -/
def divideOut (n i : Nat) (hi : 2 ≤ i) (hn : 0 < n) : Nat × List Nat :=
  if h : n % i = 0 then
    let r := divideOut (n / i) i hi
      (Nat.div_pos (Nat.le_of_dvd hn (Nat.dvd_of_mod_eq_zero h)) (by omega))
    (r.1, i :: r.2)
  else
    (n, [])
termination_by n
decreasing_by exact Nat.div_lt_self hn (by omega)

theorem divideOut_fst_le (n i : Nat) (hi : 2 ≤ i) (hn : 0 < n) :
    (divideOut n i hi hn).1 ≤ n := by
  induction n, i, hi, hn using divideOut.induct with
  | case1 n i hi hn h ih =>
    rw [divideOut, dif_pos h]
    exact le_trans ih (Nat.div_le_self n i)
  | case2 n i hi hn h =>
    rw [divideOut, dif_neg h]

theorem divideOut_fst_pos (n i : Nat) (hi : 2 ≤ i) (hn : 0 < n) :
    0 < (divideOut n i hi hn).1 := by
  induction n, i, hi, hn using divideOut.induct with
  | case1 n i hi hn h ih =>
    rw [divideOut, dif_pos h]
    exact ih
  | case2 n i hi hn h =>
    rw [divideOut, dif_neg h]
    exact hn

/-- Outer loop of `prime_factors` together with the trailing
`if n > 1: factors.append(n)`:
`i = 2; while i*i <= n: (divide out i); i += 1`. -/
def factorLoop (n i : Nat) (hi : 2 ≤ i) (hn : 0 < n) : List Nat :=
  if h : i * i ≤ n then
    (divideOut n i hi hn).2 ++
      factorLoop (divideOut n i hi hn).1 (i + 1) (by omega)
        (divideOut_fst_pos n i hi hn)
  else if 1 < n then [n] else []
termination_by n + 1 - i
decreasing_by
  have h1 := divideOut_fst_le n i hi hn
  have h2 : i ≤ i * i := Nat.le_mul_of_pos_left i (by omega)
  omega

/-- `prime_factors` from `primes.py`. -/
def prime_factors (n : Int) : Except String (List Int) :=
  if h : n ≤ 0 then
    .error ("Number must be positive: " ++ toString n)
  else
    .ok ((factorLoop n.toNat 2 (by omega) (by omega)).map Int.ofNat)

/-! ### Properties of the marking loop -/

theorem markMultiples_length (s : List Bool) (n j i : Nat) (hi : 0 < i) :
    (markMultiples s n j i hi).length = s.length := by
  induction s, n, j, i, hi using markMultiples.induct with
  | case1 s n j i hi h ih =>
    rw [markMultiples, if_pos h]
    simpa using ih
  | case2 s n j i hi h =>
    rw [markMultiples, if_neg h]

/-- The marking loop starting at `j` with step `i` sets to `false` exactly the
positions `j, j + i, j + 2i, …` that lie within `[j, n]`, and leaves every
other position unchanged. -/
theorem markMultiples_getD (s : List Bool) (n j i : Nat) (hi : 0 < i) (k : Nat)
    (hlen : n < s.length) :
    (markMultiples s n j i hi).getD k false =
      if j ≤ k ∧ k ≤ n ∧ i ∣ (k - j) then false else s.getD k false := by
  revert k hlen
  induction s, n, j, i, hi using markMultiples.induct with
  | case1 s n j i hi h ih =>
    intro k hlen
    rw [markMultiples, if_pos h]
    have hlen' : n < (s.set j false).length := by simpa using hlen
    rw [ih k hlen']
    by_cases hkj : k = j
    · subst hkj
      have hklt : k < s.length := lt_of_le_of_lt h hlen
      rw [if_neg (by omega), if_pos ⟨le_rfl, h, by simp⟩]
      simp [List.getD_eq_getElem?_getD, List.getElem?_set, hklt]
    · have hset : (s.set j false).getD k false = s.getD k false := by
        simp [List.getD_eq_getElem?_getD, List.getElem?_set, Ne.symm hkj]
      rw [hset]
      have hCond : (j + i ≤ k ∧ k ≤ n ∧ i ∣ (k - (j + i))) ↔
          (j ≤ k ∧ k ≤ n ∧ i ∣ (k - j)) := by
        constructor
        · rintro ⟨h1, h2, h3⟩
          refine ⟨by omega, h2, ?_⟩
          have heq : k - j = (k - (j + i)) + i := by omega
          rw [heq]
          exact Nat.dvd_add h3 dvd_rfl
        · rintro ⟨h1, h2, h3⟩
          have hpos : 0 < k - j := by omega
          have hik : i ≤ k - j := Nat.le_of_dvd hpos h3
          refine ⟨by omega, h2, ?_⟩
          have heq : k - (j + i) = (k - j) - i := by omega
          rw [heq]
          exact Nat.dvd_sub' h3 dvd_rfl
      rw [if_congr hCond rfl rfl]
  | case2 s n j i hi h =>
    intro k hlen
    rw [markMultiples, if_neg h, if_neg (by omega)]

/-! ### The sieve invariant -/

/-- Loop invariant of the Sieve of Eratosthenes at the head of the outer loop
with counter `i`: a position `k ≤ n` is still marked `true` iff `k ≥ 2` and no
prime `p < i` with `p * p ≤ k` divides `k`. -/
def SieveInv (n : Nat) (s : List Bool) (i : Nat) : Prop :=
  ∀ k, k ≤ n →
    (s.getD k false = true ↔
      (2 ≤ k ∧ ∀ p, Nat.Prime p → p < i → p ∣ k → k < p * p))

theorem initFlags_length (n : Nat) : (initFlags n).length = n + 1 := by
  simp [initFlags]

theorem initFlags_getD (n k : Nat) (h : k ≤ n) :
    (initFlags n).getD k false = decide (2 ≤ k) := by
  have hk : k < n + 1 := by omega
  simp [initFlags, List.getD_eq_getElem?_getD, List.getElem?_map,
    List.getElem?_range, hk]

theorem sieveInv_init (n : Nat) : SieveInv n (initFlags n) 2 := by
  intro k hk
  rw [initFlags_getD n k hk]
  simp only [decide_eq_true_eq]
  constructor
  · intro h2
    exact ⟨h2, fun p hp hlt _ => absurd hp.two_le (by omega)⟩
  · rintro ⟨h2, _⟩
    exact h2

/-- Running the outer sieve loop from any state satisfying the invariant
produces the exact primality table. -/
theorem sieveLoop_correct :
    ∀ (s : List Bool) (n i : Nat) (hi0 : 0 < i), 2 ≤ i → s.length = n + 1 →
      SieveInv n s i →
      (sieveLoop s n i hi0).length = n + 1 ∧
        ∀ k, k ≤ n → ((sieveLoop s n i hi0).getD k false = true ↔ Nat.Prime k) := by
  intro s n i hi0
  induction s, n, i, hi0 using sieveLoop.induct with
  | case1 s n i hi0 h ih =>
    intro hi hlen hinv
    have hin : i ≤ n := le_trans (Nat.le_mul_of_pos_left i hi0) h
    have hlen' : (if _h : s.getD i false = true then markMultiples s n (i * i) i hi0
        else s).length = n + 1 := by
      by_cases hsi : s.getD i false = true
      · rw [dif_pos hsi, markMultiples_length, hlen]
      · rw [dif_neg hsi]
        exact hlen
    have hinv' : SieveInv n (if _h : s.getD i false = true then
        markMultiples s n (i * i) i hi0 else s) (i + 1) := by
      by_cases hsi : s.getD i false = true
      · -- `i` is still marked: by the invariant it is prime, and the loop
        -- body erases exactly the multiples of `i` that are `≥ i * i`.
        have hself := (hinv i hin).mp hsi
        have iprime : Nat.Prime i := by
          by_contra hnp
          have hne1 : i ≠ 1 := by omega
          have hq : Nat.Prime i.minFac := Nat.minFac_prime hne1
          have hqdvd : i.minFac ∣ i := Nat.minFac_dvd i
          have hqle : i.minFac ≤ i := Nat.le_of_dvd (by omega) hqdvd
          have hqne : i.minFac ≠ i := by
            intro heq
            exact hnp (heq ▸ hq)
          have hsq : i.minFac ^ 2 ≤ i := Nat.minFac_sq_le_self (by omega) hnp
          have := hself.2 i.minFac hq (by omega) hqdvd
          have h2 : i.minFac * i.minFac ≤ i := by
            calc i.minFac * i.minFac = i.minFac ^ 2 := (sq i.minFac).symm
              _ ≤ i := hsq
          omega
        rw [dif_pos hsi]
        intro k hk
        rw [markMultiples_getD s n (i * i) i hi0 k (by omega)]
        have hCond : (i * i ≤ k ∧ k ≤ n ∧ i ∣ (k - i * i)) ↔ (i ∣ k ∧ i * i ≤ k) := by
          constructor
          · rintro ⟨h1, _, h3⟩
            refine ⟨?_, h1⟩
            have heq : k = (k - i * i) + i * i := by omega
            rw [heq]
            exact Nat.dvd_add h3 (Dvd.intro i rfl)
          · rintro ⟨h1, h2⟩
            exact ⟨h2, hk, Nat.dvd_sub' h1 (Dvd.intro i rfl)⟩
        by_cases hC : i * i ≤ k ∧ k ≤ n ∧ i ∣ (k - i * i)
        · rw [if_pos hC]
          constructor
          · intro hfalse
            exact absurd hfalse (by simp)
          · rintro ⟨h2k, hall⟩
            have hik := hCond.mp hC
            have hlt := hall i iprime (by omega) hik.1
            exact absurd hlt (by omega)
        · rw [if_neg hC]
          rw [hinv k hk]
          constructor
          · rintro ⟨h2k, hall⟩
            refine ⟨h2k, fun p hp hlt hdvd => ?_⟩
            rcases Nat.lt_succ_iff_lt_or_eq.mp hlt with hlt' | heq
            · exact hall p hp hlt' hdvd
            · subst heq
              by_contra hge
              exact hC (hCond.mpr ⟨hdvd, by omega⟩)
          · rintro ⟨h2k, hall⟩
            exact ⟨h2k, fun p hp hlt hdvd => hall p hp (by omega) hdvd⟩
      · -- `i` was already erased: it is composite, so no position changes
        -- its status when the bound moves from `i` to `i + 1`.
        have hne : ¬ Nat.Prime i := by
          intro hip
          apply hsi
          rw [hinv i hin]
          refine ⟨hi, fun p hp hlt hdvd => ?_⟩
          rcases (Nat.prime_dvd_prime_iff_eq hp hip).mp hdvd with heq
          omega
        rw [dif_neg hsi]
        intro k hk
        rw [hinv k hk]
        constructor
        · rintro ⟨h2k, hall⟩
          refine ⟨h2k, fun p hp hlt hdvd => ?_⟩
          rcases Nat.lt_succ_iff_lt_or_eq.mp hlt with hlt' | heq
          · exact hall p hp hlt' hdvd
          · exact absurd (heq ▸ hp) hne
        · rintro ⟨h2k, hall⟩
          exact ⟨h2k, fun p hp hlt hdvd => hall p hp (by omega) hdvd⟩
    rw [sieveLoop, if_pos h]
    exact ih (by omega) hlen' hinv'
  | case2 s n i hi0 h =>
    intro hi hlen hinv
    rw [sieveLoop, if_neg h]
    refine ⟨hlen, fun k hk => ?_⟩
    rw [hinv k hk]
    constructor
    · rintro ⟨h2k, hall⟩
      by_contra hnp
      have hne1 : k ≠ 1 := by omega
      have hq : Nat.Prime k.minFac := Nat.minFac_prime hne1
      have hqdvd : k.minFac ∣ k := Nat.minFac_dvd k
      have hsq : k.minFac ^ 2 ≤ k := Nat.minFac_sq_le_self (by omega) hnp
      have hsq' : k.minFac * k.minFac ≤ k := by
        calc k.minFac * k.minFac = k.minFac ^ 2 := (sq k.minFac).symm
          _ ≤ k := hsq
      have hqi : k.minFac < i := by
        by_contra hge
        have : i * i ≤ k.minFac * k.minFac :=
          Nat.mul_le_mul (by omega) (by omega)
        omega
      have := hall k.minFac hq hqi hqdvd
      omega
    · intro hkp
      refine ⟨hkp.two_le, fun p hp hlt hdvd => ?_⟩
      have heq : p = k := (Nat.prime_dvd_prime_iff_eq hp hkp).mp hdvd
      subst heq
      have h2p := hp.two_le
      nlinarith

/-! ### The master specification of `generate_sieve` -/

/-- For every `n ≥ 0`, `generate_sieve n` succeeds with a table of length
`n + 1` whose entry `k` decides primality of `k`. -/
theorem generate_sieve_ok (n : Int) (h : 0 ≤ n) :
    ∃ t, generate_sieve n = Except.ok t ∧ t.length = n.toNat + 1 ∧
      ∀ k, k ≤ n.toNat → (t.getD k false = true ↔ Nat.Prime k) := by
  by_cases h2 : n < 2
  · refine ⟨List.replicate (n.toNat + 1) false, ?_, by simp, ?_⟩
    · rw [generate_sieve, if_neg (by omega), if_pos h2]
    · intro k hk
      have hk1 : k ≤ 1 := by omega
      have hrep : (List.replicate (n.toNat + 1) false).getD k false = false := by
        rcases Nat.lt_or_ge k (n.toNat + 1) with hlt | hge
        · simp [List.getD_eq_getElem?_getD, List.getElem?_replicate, hlt]
        · have hlen : (List.replicate (n.toNat + 1) false).length ≤ k := by
            simpa using hge
          simp [List.getD_eq_getElem?_getD, List.getElem?_eq_none hlen]
      rw [hrep]
      constructor
      · intro hfalse
        exact absurd hfalse (by simp)
      · intro hkp
        exact absurd hkp.two_le (by omega)
  · refine ⟨sieveLoop (initFlags n.toNat) n.toNat 2 (by omega), ?_, ?_, ?_⟩
    · rw [generate_sieve, if_neg (by omega), if_neg h2]
    · exact (sieveLoop_correct (initFlags n.toNat) n.toNat 2 (by omega) (by omega)
        (initFlags_length n.toNat) (sieveInv_init n.toNat)).1
    · exact (sieveLoop_correct (initFlags n.toNat) n.toNat 2 (by omega) (by omega)
        (initFlags_length n.toNat) (sieveInv_init n.toNat)).2

/-- `is_prime` decides primality: it is `true` exactly on the non-negative
inputs whose value is a prime number. -/
theorem is_prime_iff (n : Int) : is_prime n = true ↔ (0 ≤ n ∧ Nat.Prime n.toNat) := by
  by_cases h2 : n < 2
  · rw [is_prime, if_pos h2]
    constructor
    · intro hfalse
      exact absurd hfalse (by simp)
    · rintro ⟨h0, hp⟩
      have := hp.two_le
      omega
  · obtain ⟨t, ht, hlen, hiff⟩ := generate_sieve_ok n (by omega)
    rw [is_prime, if_neg h2, ht]
    show t.getD n.toNat false = true ↔ _
    rw [hiff n.toNat (le_refl _)]
    constructor
    · intro hp
      exact ⟨by omega, hp⟩
    · rintro ⟨_, hp⟩
      exact hp

/-! ### Claim theorems -/

/-- C1: for every integer `N ≥ 0`, `generate_sieve N` returns a boolean table
of length exactly `N + 1` in which position `i` is `true` iff `i` is prime,
for all `0 ≤ i ≤ N` (in particular positions 0 and 1, when present, are
`false`, since 0 and 1 are not prime). -/
theorem generate_sieve_correct (n : Int) (h : 0 ≤ n) :
    ∃ t, generate_sieve n = Except.ok t ∧ t.length = n.toNat + 1 ∧
      ∀ i, i ≤ n.toNat → (t.getD i false = true ↔ Nat.Prime i) :=
  generate_sieve_ok n h

/-- Witness for C1 at `N = 10`. -/
theorem generate_sieve_correct_witness :
    (0 : Int) ≤ 10 ∧
      ∃ t, generate_sieve 10 = Except.ok t ∧ t.length = (10 : Int).toNat + 1 ∧
        ∀ i, i ≤ (10 : Int).toNat → (t.getD i false = true ↔ Nat.Prime i) :=
  ⟨by decide, generate_sieve_correct 10 (by decide)⟩

/-- C3: for every integer `N`, `is_prime N` returns `true` iff `N` is a prime
number; for every `N < 2` (negative numbers, 0 and 1 included) it returns
`false`, and being a total `Bool`-valued function it raises no error. -/
theorem is_prime_correct (n : Int) :
    (is_prime n = true ↔ (0 ≤ n ∧ Nat.Prime n.toNat)) ∧
      (n < 2 → is_prime n = false) := by
  refine ⟨is_prime_iff n, fun h2 => ?_⟩
  rw [is_prime, if_pos h2]

/-- Witness for C3 at `N = 1`. -/
theorem is_prime_correct_witness : (1 : Int) < 2 ∧ is_prime 1 = false :=
  ⟨by decide, (is_prime_correct 1).2 (by decide)⟩

/-- C7: every operation rejects its invalid inputs (`N < 0`, respectively
`N ≤ 0` for `prime_factors`) with an invalid-argument error naming the input,
before any computation and returning no partial result. -/
theorem invalid_input_errors (n : Int) :
    (n < 0 →
      generate_sieve n = Except.error ("Limit cannot be negative: " ++ toString n) ∧
      sum_primes n = Except.error ("Upper bound cannot be negative: " ++ toString n) ∧
      sum_primes_using_sieve n =
        Except.error ("Upper limit cannot be negative: " ++ toString n) ∧
      get_all_primes_up_to n =
        Except.error ("Upper bound cannot be negative: " ++ toString n)) ∧
    (n ≤ 0 →
      prime_factors n = Except.error ("Number must be positive: " ++ toString n)) := by
  constructor
  · intro hneg
    refine ⟨?_, ?_, ?_, ?_⟩
    · rw [generate_sieve, if_pos hneg]
    · rw [sum_primes, if_pos hneg]
    · rw [sum_primes_using_sieve, if_pos hneg]
    · rw [get_all_primes_up_to, if_pos hneg]
  · intro hnonpos
    rw [prime_factors, dif_pos hnonpos]

/-- Witness for C7 at `N = -1` (and `N = 0` for `prime_factors`). -/
theorem invalid_input_errors_witness :
    generate_sieve (-1) =
        Except.error ("Limit cannot be negative: " ++ toString (-1 : Int)) ∧
      prime_factors 0 =
        Except.error ("Number must be positive: " ++ toString (0 : Int)) :=
  ⟨((invalid_input_errors (-1)).1 (by decide)).1,
    (invalid_input_errors 0).2 (by decide)⟩

/-- C9: `generate_sieve` is deterministic — two calls with the same `N`
produce bit-identical tables (in this pure embedding, any two successful
results of the same call are equal). -/
theorem generate_sieve_deterministic (n : Int) (t₁ t₂ : List Bool)
    (h₁ : generate_sieve n = Except.ok t₁)
    (h₂ : generate_sieve n = Except.ok t₂) : t₁ = t₂ :=
  Except.ok.inj (h₁.symm.trans h₂)

/-- Witness for C9 at `N = 1`. -/
theorem generate_sieve_deterministic_witness :
    ([false, false] : List Bool) = [false, false] :=
  generate_sieve_deterministic 1 [false, false] [false, false] rfl rfl

/-! ### Summation and enumeration -/

theorem bool_eq_of_iff {a b : Bool} (h : (a = true) ↔ (b = true)) : a = b := by
  cases a <;> cases b <;> simp_all

/-- The guarded accumulation loop over a list sums exactly the elements
passing the guard. -/
theorem foldl_if_sum (c : Nat → Bool) (l : List Nat) (acc : Nat) :
    l.foldl (fun t i => if c i then t + i else t) acc = acc + (l.filter c).sum := by
  induction l generalizing acc with
  | nil => simp
  | cons x xs ih =>
    by_cases hx : c x
    · rw [List.foldl_cons, if_pos hx, ih, List.filter_cons_of_pos hx, List.sum_cons]
      omega
    · rw [List.foldl_cons, if_neg hx, ih, List.filter_cons_of_neg hx]

/-- Filtering `range m` by a guard that rejects 0 and 1 is the same as
filtering the tail `[2, m)` of the range. -/
theorem range_filter_split (m : Nat) (h2 : 2 ≤ m) (c : Nat → Bool)
    (h0 : c 0 = false) (h1 : c 1 = false) :
    (List.range m).filter c = (List.range' 2 (m - 2)).filter c := by
  have hsplit : List.range' 0 2 ++ List.range' 2 (m - 2) = List.range' 0 m := by
    have hm : m - 2 + 2 = m := by omega
    simpa [hm] using List.range'_append 0 2 (m - 2) 1
  rw [List.range_eq_range' m, ← hsplit, List.filter_append]
  have hnil : (List.range' 0 2).filter c = [] := by
    have hr : List.range' 0 2 = [0, 1] := rfl
    rw [hr]
    simp [List.filter, h0, h1]
  rw [hnil, List.nil_append]

/-- For `n ≥ 0`, `sum_primes n` equals the sum of the primes below `n`. -/
theorem sum_primes_spec (n : Int) (h : 0 ≤ n) :
    sum_primes n = Except.ok
      ((((List.range n.toNat).filter (fun k => decide (Nat.Prime k))).sum : Nat) : Int) := by
  by_cases hn2 : n ≤ 2
  · rw [sum_primes, if_neg (by omega), if_pos hn2]
    have hm : n.toNat = 0 ∨ n.toNat = 1 ∨ n.toNat = 2 := by omega
    have hf : (List.range n.toNat).filter (fun k => decide (Nat.Prime k)) = [] := by
      rcases hm with hm | hm | hm <;> rw [hm] <;> decide
    rw [hf]
    rfl
  · obtain ⟨t, ht, hlen, hiff⟩ := generate_sieve_ok (n - 1) (by omega)
    rw [sum_primes, if_neg (by omega), if_neg hn2, ht]
    dsimp only
    have hfold : (List.range' 2 (n.toNat - 2)).foldl
        (fun total i => if t.getD i false then total + i else total) 0
        = ((List.range n.toNat).filter (fun k => decide (Nat.Prime k))).sum := by
      rw [foldl_if_sum]
      have hcong : (List.range' 2 (n.toNat - 2)).filter (fun i => t.getD i false)
          = (List.range' 2 (n.toNat - 2)).filter (fun k => decide (Nat.Prime k)) := by
        apply List.filter_congr
        intro x hx
        rw [List.mem_range'] at hx
        obtain ⟨d, hd, hxd⟩ := hx
        have hxle : x ≤ (n - 1).toNat := by omega
        apply bool_eq_of_iff
        rw [hiff x hxle, decide_eq_true_eq]
      rw [hcong, ← range_filter_split n.toNat (by omega) _ (by decide) (by decide),
        Nat.zero_add]
    rw [hfold]

/-- C5: for every `N ≥ 0`, `sum_primes N` returns the exact sum of all primes
strictly less than `N`; for `0 ≤ N ≤ 2` it returns 0. -/
theorem sum_primes_correct (n : Int) (h : 0 ≤ n) :
    sum_primes n = Except.ok
      ((((List.range n.toNat).filter (fun k => decide (Nat.Prime k))).sum : Nat) : Int) ∧
    (n ≤ 2 → sum_primes n = Except.ok 0) := by
  refine ⟨sum_primes_spec n h, fun hn2 => ?_⟩
  rw [sum_primes, if_neg (by omega), if_pos hn2]

/-- Witness for C5 at `N = 10`. -/
theorem sum_primes_correct_witness :
    (0 : Int) ≤ 10 ∧
      (sum_primes 10 = Except.ok
        ((((List.range (10 : Int).toNat).filter
          (fun k => decide (Nat.Prime k))).sum : Nat) : Int) ∧
      ((10 : Int) ≤ 2 → sum_primes 10 = Except.ok 0)) :=
  ⟨by decide, sum_primes_correct 10 (by decide)⟩

/-- For `n ≥ 0` the two summation entry points compute the same value. -/
theorem sum_primes_eq_using_sieve (n : Int) (h : 0 ≤ n) :
    sum_primes n = sum_primes_using_sieve n := by
  by_cases hlt : n < 2
  · rw [sum_primes, if_neg (by omega), if_pos (by omega),
      sum_primes_using_sieve, if_neg (by omega), if_pos hlt]
  · by_cases heq : n = 2
    · subst heq
      rfl
    · rw [sum_primes, if_neg (by omega), if_neg (by omega),
        sum_primes_using_sieve, if_neg (by omega), if_neg (by omega)]

/-- C4: `sum_primes` and `sum_primes_using_sieve` have identical observable
behaviour: they return the same value on every input, and they fail on
exactly the same inputs. -/
theorem sum_primes_equiv_sum_primes_using_sieve (n : Int) :
    (∀ v : Int, sum_primes n = Except.ok v ↔ sum_primes_using_sieve n = Except.ok v) ∧
    ((∃ e, sum_primes n = Except.error e) ↔
      (∃ e, sum_primes_using_sieve n = Except.error e)) := by
  by_cases hneg : n < 0
  · constructor
    · intro v
      rw [sum_primes, if_pos hneg, sum_primes_using_sieve, if_pos hneg]
      constructor <;> intro hc <;> exact absurd hc (by simp)
    · rw [sum_primes, if_pos hneg, sum_primes_using_sieve, if_pos hneg]
      exact ⟨fun _ => ⟨_, rfl⟩, fun _ => ⟨_, rfl⟩⟩
  · rw [sum_primes_eq_using_sieve n (by omega)]
    exact ⟨fun v => Iff.rfl, Iff.rfl⟩

/-- For `n ≥ 0`, `get_all_primes_up_to n` is the list of primes up to `n`. -/
theorem get_all_primes_eq (n : Int) (h : 0 ≤ n) :
    get_all_primes_up_to n = Except.ok
      (((List.range (n.toNat + 1)).filter (fun k => decide (Nat.Prime k))).map Int.ofNat) := by
  by_cases h2 : n < 2
  · rw [get_all_primes_up_to, if_neg (by omega), if_pos h2]
    have hm : n.toNat = 0 ∨ n.toNat = 1 := by omega
    have hf : (List.range (n.toNat + 1)).filter (fun k => decide (Nat.Prime k)) = [] := by
      rcases hm with hm | hm <;> rw [hm] <;> decide
    rw [hf]
    rfl
  · obtain ⟨t, ht, hlen, hiff⟩ := generate_sieve_ok n (by omega)
    rw [get_all_primes_up_to, if_neg (by omega), if_neg h2, ht]
    dsimp only
    have hcong : (List.range' 2 (n.toNat - 1)).filter (fun i => t.getD i false)
        = (List.range' 2 (n.toNat - 1)).filter (fun k => decide (Nat.Prime k)) := by
      apply List.filter_congr
      intro x hx
      rw [List.mem_range'] at hx
      obtain ⟨d, hd, hxd⟩ := hx
      have hxle : x ≤ n.toNat := by omega
      apply bool_eq_of_iff
      rw [hiff x hxle, decide_eq_true_eq]
    have hm1 : n.toNat + 1 - 2 = n.toNat - 1 := by omega
    rw [hcong, ← hm1,
      ← range_filter_split (n.toNat + 1) (by omega) _ (by decide) (by decide)]

theorem ofNat_cast (a : Nat) : Int.ofNat a = (a : Int) := rfl

/-- Membership in the prime list produced for bound `n`. -/
theorem mem_primes_list (n : Int) (h : 0 ≤ n) (x : Int) :
    (x ∈ ((List.range (n.toNat + 1)).filter
        (fun k => decide (Nat.Prime k))).map Int.ofNat)
      ↔ (0 ≤ x ∧ Nat.Prime x.toNat ∧ x ≤ n) := by
  rw [List.mem_map]
  constructor
  · rintro ⟨a, ha, rfl⟩
    rw [List.mem_filter, List.mem_range] at ha
    obtain ⟨har, hap⟩ := ha
    rw [decide_eq_true_eq] at hap
    rw [ofNat_cast a]
    refine ⟨by omega, ?_, by omega⟩
    have htn : ((a : Int)).toNat = a := by omega
    rw [htn]
    exact hap
  · rintro ⟨hx0, hxp, hxn⟩
    refine ⟨x.toNat, ?_, by rw [ofNat_cast]; omega⟩
    rw [List.mem_filter, List.mem_range]
    exact ⟨by omega, by rw [decide_eq_true_eq]; exact hxp⟩

/-- C6: for every `N ≥ 0`, `get_all_primes_up_to N` returns the strictly
ascending, duplicate-free sequence of exactly the primes in `[2, N]`; for
`N < 2` it returns the empty sequence. -/
theorem get_all_primes_up_to_correct (n : Int) (h : 0 ≤ n) :
    ∃ l, get_all_primes_up_to n = Except.ok l ∧ l.Sorted (· < ·) ∧
      (∀ x : Int, x ∈ l ↔ (0 ≤ x ∧ Nat.Prime x.toNat ∧ x ≤ n)) ∧
      (n < 2 → l = []) := by
  refine ⟨_, get_all_primes_eq n h, ?_, fun x => mem_primes_list n h x, ?_⟩
  · have hs : ((List.range (n.toNat + 1)).filter
        (fun k => decide (Nat.Prime k))).Sorted (· < ·) :=
      List.Sorted.filter _ (List.sorted_lt_range _)
    exact List.Pairwise.map _ (fun a b hab => Int.ofNat_lt.mpr hab) hs
  · intro h2
    have hm : n.toNat = 0 ∨ n.toNat = 1 := by omega
    rcases hm with hm | hm <;> rw [hm] <;> decide

/-- Witness for C6 at `N = 10`. -/
theorem get_all_primes_up_to_correct_witness :
    (0 : Int) ≤ 10 ∧
      ∃ l, get_all_primes_up_to 10 = Except.ok l ∧ l.Sorted (· < ·) ∧
        (∀ x : Int, x ∈ l ↔ (0 ≤ x ∧ Nat.Prime x.toNat ∧ x ≤ 10)) ∧
        ((10 : Int) < 2 → l = []) :=
  ⟨by decide, get_all_primes_up_to_correct 10 (by decide)⟩

/-- C8: for every `N ≥ 0`, `is_prime N` is `true` iff `N` occurs in
`get_all_primes_up_to N`, and every element of `get_all_primes_up_to N`
satisfies `is_prime`. -/
theorem is_prime_agrees_with_enumeration (n : Int) (h : 0 ≤ n) :
    (is_prime n = true ↔ n ∈ (get_all_primes_up_to n).toOption.getD []) ∧
    (∀ p, p ∈ (get_all_primes_up_to n).toOption.getD [] → is_prime p = true) := by
  rw [get_all_primes_eq n h]
  show (is_prime n = true ↔
      n ∈ ((List.range (n.toNat + 1)).filter
        (fun k => decide (Nat.Prime k))).map Int.ofNat) ∧ _
  constructor
  · rw [is_prime_iff, mem_primes_list n h n]
    constructor
    · rintro ⟨h0, hp⟩
      exact ⟨h0, hp, le_refl n⟩
    · rintro ⟨h0, hp, _⟩
      exact ⟨h0, hp⟩
  · intro p hp
    rw [show (Except.ok (((List.range (n.toNat + 1)).filter
        (fun k => decide (Nat.Prime k))).map Int.ofNat) :
          Except String (List Int)).toOption.getD []
        = ((List.range (n.toNat + 1)).filter
            (fun k => decide (Nat.Prime k))).map Int.ofNat from rfl] at hp
    rw [mem_primes_list n h p] at hp
    rw [is_prime_iff]
    exact ⟨hp.1, hp.2.1⟩

/-- Witness for C8 at `N = 10`. -/
theorem is_prime_agrees_with_enumeration_witness :
    (0 : Int) ≤ 10 ∧
      ((is_prime 10 = true ↔ (10 : Int) ∈ (get_all_primes_up_to 10).toOption.getD []) ∧
      (∀ p, p ∈ (get_all_primes_up_to 10).toOption.getD [] → is_prime p = true)) :=
  ⟨by decide, is_prime_agrees_with_enumeration 10 (by decide)⟩

/-! ### Factorization -/

/-- What the inner division loop computes: it strips the maximal power of
`i` from `n`, appending one copy of `i` per division. -/
theorem divideOut_spec (n i : Nat) (hi : 2 ≤ i) (hn : 0 < n) :
    (divideOut n i hi hn).2 = List.replicate (divideOut n i hi hn).2.length i ∧
    n = i ^ (divideOut n i hi hn).2.length * (divideOut n i hi hn).1 ∧
    ¬ i ∣ (divideOut n i hi hn).1 := by
  induction n, i, hi, hn using divideOut.induct with
  | case1 n i hi hn h ih =>
    obtain ⟨hrep, hprod, hdvd⟩ := ih
    rw [divideOut, dif_pos h]
    dsimp only
    refine ⟨?_, ?_, hdvd⟩
    · rw [List.length_cons, List.replicate_succ, ← hrep]
    · have hdiv : i * (n / i) = n := Nat.mul_div_cancel' (Nat.dvd_of_mod_eq_zero h)
      rw [List.length_cons, pow_succ]
      have habs : ∀ (q A B : Nat), i * q = n → q = A * B → n = A * i * B := by
        intro q A B h1 h2
        rw [← h1, h2]
        ring
      exact habs (n / i) _ _ hdiv hprod
  | case2 n i hi hn h =>
    rw [divideOut, dif_neg h]
    refine ⟨by simp, by simp, ?_⟩
    intro hdvd
    obtain ⟨c, rfl⟩ := hdvd
    exact h (Nat.mul_mod_right i c)

/-- Correctness of the trial-division loop: started at counter `i` on a
value `n` with no divisor in `[2, i)`, it returns the sorted list of prime
factors of `n` with multiplicity, all of them `≥ i`. -/
theorem factorLoop_spec :
    ∀ (n i : Nat) (hi : 2 ≤ i) (hn : 0 < n),
      (∀ d, 2 ≤ d → d < i → ¬ d ∣ n) →
      (factorLoop n i hi hn).prod = n ∧
      (∀ p ∈ factorLoop n i hi hn, Nat.Prime p ∧ i ≤ p) ∧
      (factorLoop n i hi hn).Sorted (· ≤ ·) := by
  intro n i hi hn
  induction n, i, hi, hn using factorLoop.induct with
  | case1 n i hi hn h ih =>
    intro hnd
    obtain ⟨hrep, hprod, hndvd⟩ := divideOut_spec n i hi hn
    rw [factorLoop, dif_pos h]
    set m := (divideOut n i hi hn).1 with hm
    set fs := (divideOut n i hi hn).2 with hfs
    set L := fs.length with hL
    have hmn : m ∣ n := ⟨i ^ L, by rw [hprod]; ring⟩
    have hm_pre : ∀ d, 2 ≤ d → d < i + 1 → ¬ d ∣ m := by
      intro d hd2 hdi hdm
      rcases Nat.lt_succ_iff_lt_or_eq.mp hdi with hlt | heq2
      · exact hnd d hd2 hlt (hdm.trans hmn)
      · subst heq2
        exact hndvd hdm
    have hrec := ih hm_pre
    have hipr : 0 < L → Nat.Prime i := by
      intro hL0
      have hidvd : i ∣ n := by
        rw [hprod]
        exact Dvd.dvd.mul_right (dvd_pow_self i (by omega)) m
      by_contra hnp
      have hne1 : i ≠ 1 := by omega
      have hq := Nat.minFac_prime hne1
      have hqd : i.minFac ∣ i := Nat.minFac_dvd i
      have hqle : i.minFac ≤ i := Nat.le_of_dvd (by omega) hqd
      have hqne : i.minFac ≠ i := fun heq2 => hnp (heq2 ▸ hq)
      exact hnd i.minFac hq.two_le (by omega) (hqd.trans hidvd)
    refine ⟨?_, ?_, ?_⟩
    · rw [List.prod_append, hrec.1]
      have hfsprod : fs.prod = i ^ L := by
        rw [hrep, List.prod_replicate]
      rw [hfsprod]
      exact hprod.symm
    · intro p hp
      rcases List.mem_append.mp hp with hp' | hp'
      · have hL0 : 0 < L := by
          by_contra hL0
          have hnil : fs = [] := List.length_eq_zero.mp (by omega)
          rw [hnil] at hp'
          simp at hp'
        have hpi : p = i := List.eq_of_mem_replicate (hrep ▸ hp')
        subst hpi
        exact ⟨hipr hL0, le_refl _⟩
      · obtain ⟨hprime, hge⟩ := hrec.2.1 p hp'
        exact ⟨hprime, by omega⟩
    · rw [List.Sorted, List.pairwise_append]
      refine ⟨?_, hrec.2.2, ?_⟩
      · rw [hrep]
        exact (List.pairwise_replicate).mpr (Or.inr (le_refl i))
      · intro a ha b hb
        have ha2 : a = i := List.eq_of_mem_replicate (hrep ▸ ha)
        have hb2 := (hrec.2.1 b hb).2
        omega
  | case2 n i hi hn h h1 =>
    intro hnd
    rw [factorLoop, dif_neg h, if_pos h1]
    have hnprime : Nat.Prime n := by
      by_contra hnp
      have hne1 : n ≠ 1 := by omega
      have hq := Nat.minFac_prime hne1
      have hqd := Nat.minFac_dvd n
      have hsq : n.minFac ^ 2 ≤ n := Nat.minFac_sq_le_self (by omega) hnp
      have hsq2 : n.minFac * n.minFac ≤ n := by
        calc n.minFac * n.minFac = n.minFac ^ 2 := (sq n.minFac).symm
          _ ≤ n := hsq
      have hqi : n.minFac < i := by
        by_contra hge
        have : i * i ≤ n.minFac * n.minFac :=
          Nat.mul_le_mul (by omega) (by omega)
        omega
      exact hnd n.minFac hq.two_le hqi hqd
    have hin : i ≤ n := by
      by_contra hgt
      exact hnd n (by omega) (by omega) dvd_rfl
    refine ⟨by simp, ?_, by simp⟩
    intro p hp
    have hpn : p = n := by simpa using hp
    subst hpn
    exact ⟨hnprime, hin⟩
  | case3 n i hi hn h h1 =>
    intro hnd
    rw [factorLoop, dif_neg h, if_neg h1]
    have hn1 : n = 1 := by omega
    exact ⟨by simp [hn1], by simp, by simp⟩

theorem map_cast_prod (l : List Nat) : (l.map Int.ofNat).prod = (l.prod : Int) := by
  induction l with
  | nil => rfl
  | cons x xs ih =>
    rw [List.map_cons, List.prod_cons, List.prod_cons, ih, ofNat_cast]
    exact (Nat.cast_mul x xs.prod).symm

/-- C2: for every integer `N > 0`, `prime_factors N` returns a sequence of
primes, sorted ascending, whose product is `N`; `prime_factors 1` is empty. -/
theorem prime_factors_correct (n : Int) (h : 0 < n) :
    ∃ l, prime_factors n = Except.ok l ∧
      l.prod = n ∧
      (∀ p ∈ l, ∃ q : Nat, Nat.Prime q ∧ p = (q : Int)) ∧
      l.Sorted (· ≤ ·) ∧
      (n = 1 → l = []) := by
  have hn0 : ¬ n ≤ 0 := by omega
  obtain ⟨hprod, hmem, hsort⟩ := factorLoop_spec n.toNat 2 (by omega) (by omega)
    (fun d hd2 hdlt => absurd hdlt (by omega))
  refine ⟨(factorLoop n.toNat 2 (by omega) (by omega)).map Int.ofNat, ?_, ?_, ?_, ?_, ?_⟩
  · rw [prime_factors, dif_neg hn0]
  · rw [map_cast_prod, hprod]
    omega
  · intro p hp
    rw [List.mem_map] at hp
    obtain ⟨q, hq, rfl⟩ := hp
    exact ⟨q, (hmem q hq).1, (ofNat_cast q)⟩
  · exact List.Pairwise.map _ (fun a b hab => Int.ofNat_le.mpr hab) hsort
  · intro h1
    have h1n : n.toNat = 1 := by omega
    rw [factorLoop, dif_neg (by omega), if_neg (by omega)]
    rfl

/-- Witness for C2 at `N = 12`. -/
theorem prime_factors_correct_witness :
    (0 : Int) < 12 ∧
      ∃ l, prime_factors 12 = Except.ok l ∧
        l.prod = 12 ∧
        (∀ p ∈ l, ∃ q : Nat, Nat.Prime q ∧ p = (q : Int)) ∧
        l.Sorted (· ≤ ·) ∧
        ((12 : Int) = 1 → l = []) :=
  ⟨by decide, prime_factors_correct 12 (by decide)⟩

/-- C10: `prime_factors` terminates on every positive input — the embedding's
well-founded recursion (inner loop decreasing on the remaining value, outer
loop bounded by `i * i ≤ n`) is total, so a result is always returned. -/
theorem prime_factors_terminates (n : Int) (h : 1 ≤ n) :
    ∃ l, prime_factors n = Except.ok l := by
  rw [prime_factors, dif_neg (by omega)]
  exact ⟨_, rfl⟩

/-- Witness for C10 at `N = 12`. -/
theorem prime_factors_terminates_witness :
    (1 : Int) ≤ 12 ∧ ∃ l, prime_factors 12 = Except.ok l :=
  ⟨by decide, prime_factors_terminates 12 (by decide)⟩

end Primes
